import Mathlib

/-!
# Verification of the FunkWechat token-manager core

Shallow embedding of the `core` package's token manager
(`core/token_manager.go`) and its in-memory expiring cache
(`MemoryCache`), together with proofs of the specified properties.

* Sequential behaviour of `fetchAndStore` / `do` / `GetToken` /
  `RefreshToken` is embedded as pure functions that also record their
  observable effects (whether the fetcher was invoked, which `Set` call
  was issued, whether a cache-write warning was logged).
* The concurrent single-flight protocol of `do` is embedded as a small-
  step state machine over an explicit scheduler: each mutex-protected
  region, and each individual access to the shared cache, is one atomic
  step.  Properties are proved for all schedules by invariants.
* `MemoryCache` is embedded with time as an integer instant; the zero
  `time.Time` is modelled as `Option.none`.
-/

namespace FunkWechat

/-- Embedding of Go's `core.TokenFetchResult` (`Token string`,
`ExpiresIn int`). -/
structure TokenFetchResult where
  Token : String
  ExpiresIn : Int
deriving DecidableEq, Repr

/-- The errors the token manager itself can surface: a fetcher error
(carrying the fetcher's message verbatim), the manager's own
"empty token from fetcher" error, and a waiter's `ctx.Err()`. -/
inductive TMErr where
  | fetchErr (msg : String)
  | emptyToken
  | ctxCanceled
deriving DecidableEq, Repr

/-- A Go `(string, error)` pair as returned by `GetToken` /
`RefreshToken` / `fetchAndStore` / `waitTokenCall`: the token string
together with an optional error (`none` = `nil`). -/
abbrev TMRes := String × Option TMErr

/-- Record of a `cache.Set` call issued by `fetchAndStore`: the key,
the value, and the TTL in seconds that was passed
(`time.Duration(ttlSeconds) * time.Second`). -/
structure SetCall where
  key : String
  value : String
  ttlSeconds : Int
deriving DecidableEq, Repr

/-- Observable outcome of one sequential `do`/`fetchAndStore` run:
the returned `(token, error)` pair, the `cache.Set` call issued (if
any), whether the injected fetcher was invoked, and whether the
"cache token failed" warning was logged. -/
structure CallOut where
  result : TMRes
  setCall : Option SetCall
  fetched : Bool
  loggedCacheWarn : Bool
deriving DecidableEq, Repr

/-- The tail of `TokenManager.fetchAndStore` after the non-forced
cache double-check: invoke the fetcher, reject an empty token, compute
`ttlSeconds = max(result.ExpiresIn - expireBufferSeconds, 1)`, issue
`cache.Set` (whose error, `setErr`, is only logged) and return the
token.  `fetchRes` is the fetcher's return value, `setErr` the error
`cache.Set` would return for this call. -/
def fetchTail (cacheKey : String) (expireBufferSeconds : Int)
    (fetchRes : Except String TokenFetchResult) (setErr : Option String) : CallOut :=
  match fetchRes with
  | .error e => ⟨("", some (.fetchErr e)), none, true, false⟩
  | .ok result =>
    if result.Token = "" then
      ⟨("", some .emptyToken), none, true, false⟩
    else
      let ttlSeconds := max (result.ExpiresIn - expireBufferSeconds) 1
      ⟨(result.Token, none), some ⟨cacheKey, result.Token, ttlSeconds⟩, true, setErr.isSome⟩

/-- Embedding of `TokenManager.fetchAndStore(ctx, force)`.  `cached`
is the value `cache.Get(ctx, m.cacheKey)` observes during the call
(`none` = miss).  When not forced and the cache holds a value, the
cached token is returned without invoking the fetcher; otherwise the
fetch tail runs. -/
def fetchAndStore (cacheKey : String) (expireBufferSeconds : Int) (force : Bool)
    (cached : Option String) (fetchRes : Except String TokenFetchResult)
    (setErr : Option String) : CallOut :=
  if force then
    fetchTail cacheKey expireBufferSeconds fetchRes setErr
  else
    match cached with
    | some token => ⟨(token, none), none, false, false⟩
    | none => fetchTail cacheKey expireBufferSeconds fetchRes setErr

/-- Embedding of `TokenManager.do(ctx, force)` for a single caller
when no fetch is in flight (`m.inflight == nil`): after taking the
mutex, a non-forced call re-checks the cache and returns a hit
directly; otherwise the caller becomes the leader and runs
`fetchAndStore`.  (The concurrent in-flight path is modelled by the
state machine below.) -/
def doCall (cacheKey : String) (expireBufferSeconds : Int) (force : Bool)
    (cached : Option String) (fetchRes : Except String TokenFetchResult)
    (setErr : Option String) : CallOut :=
  if force then
    fetchAndStore cacheKey expireBufferSeconds force cached fetchRes setErr
  else
    match cached with
    | some token => ⟨(token, none), none, false, false⟩
    | none => fetchAndStore cacheKey expireBufferSeconds force cached fetchRes setErr

/-- Embedding of `TokenManager.GetToken` for a single caller with no
fetch in flight: an unlocked cache read first, then `do(ctx, false)`. -/
def GetTokenSeq (cacheKey : String) (expireBufferSeconds : Int)
    (cached : Option String) (fetchRes : Except String TokenFetchResult)
    (setErr : Option String) : CallOut :=
  match cached with
  | some token => ⟨(token, none), none, false, false⟩
  | none => doCall cacheKey expireBufferSeconds false cached fetchRes setErr

/-- Embedding of `TokenManager.RefreshToken` for a single caller with
no fetch in flight: `do(ctx, true)`. -/
def RefreshTokenSeq (cacheKey : String) (expireBufferSeconds : Int)
    (cached : Option String) (fetchRes : Except String TokenFetchResult)
    (setErr : Option String) : CallOut :=
  doCall cacheKey expireBufferSeconds true cached fetchRes setErr

/-! ## The in-memory expiring cache (`MemoryCache`)

Time instants are integers (Go nanoseconds); `time.Time`'s zero value
(as produced by `var expiresAt time.Time`) is modelled as `none`. -/

/-- Embedding of `cacheItem`: a value together with its expiry
instant; `none` models the zero `time.Time` ("never expires"). -/
structure cacheItem where
  value : String
  expiresAt : Option Int
deriving DecidableEq, Repr

/-- Embedding of `cacheItem.isExpired` at the instant `now`:
`expiresAt.IsZero()` means never expired, otherwise
`time.Now().After(item.expiresAt)`, i.e. `now > expiresAt` (strict). -/
def cacheItem.isExpired (item : cacheItem) (now : Int) : Bool :=
  match item.expiresAt with
  | none => false
  | some t => now > t

/-- Embedding of `MemoryCache`: the `items` map from keys to cache
items (`none` = key absent). -/
structure MemoryCache where
  items : String → Option cacheItem

/-- Embedding of `MemoryCache.Get` at instant `now`: returns the
`(value, found)` pair together with the receiver's state after the
call (the method body only reads, so the state is returned
unchanged). -/
def MemoryCache.Get (c : MemoryCache) (now : Int) (key : String) :
    (String × Bool) × MemoryCache :=
  match c.items key with
  | none => (("", false), c)
  | some item =>
    if item.isExpired now then (("", false), c)
    else ((item.value, true), c)

/-- Embedding of `MemoryCache.Set` at instant `now`: `expiresAt` stays
the zero time unless `ttl > 0`, in which case it is `now + ttl`; the
entry under `key` is replaced.  Returns the Go error (always `nil`,
i.e. `none`) and the new state. -/
def MemoryCache.Set (c : MemoryCache) (now : Int) (key value : String)
    (ttl : Int) : Option String × MemoryCache :=
  let expiresAt : Option Int := if ttl > 0 then some (now + ttl) else none
  (none, ⟨fun k => if k = key then some ⟨value, expiresAt⟩ else c.items k⟩)

/-- Embedding of `MemoryCache.Delete`: removes the entry under `key`
(absent keys are fine) and returns `nil` plus the new state. -/
def MemoryCache.Delete (c : MemoryCache) (key : String) :
    Option String × MemoryCache :=
  (none, ⟨fun k => if k = key then none else c.items k⟩)

/-- Embedding of `MemoryCache.Cleanup` at instant `now`: removes every
entry that `isExpired` at `now`, keeps the rest. -/
def MemoryCache.Cleanup (c : MemoryCache) (now : Int) : MemoryCache :=
  ⟨fun k =>
    match c.items k with
    | none => none
    | some item => if item.isExpired now then none else some item⟩

/-! ## Small-step machine for the concurrent single-flight protocol

`N` callers run `GetToken` (`force = false`) or `RefreshToken`
(`force = true`) against one `TokenManager`.  Each caller is a small
automaton whose program counter tracks its position in `do` /
`fetchAndStore` / `waitTokenCall`.  One step is either a whole
mutex-protected region (such regions touch the shared cache at most
once, so treating them as atomic is sound) or one access to the
shared cache, one fetcher invocation, or one `tokenCall`
publish/clear.  The cache is abstracted to the single manager key and
no expiry elapses during a run (the claims proved on the machine do
not involve TTLs); the full TTL arithmetic is covered by the
sequential `fetchAndStore` embedding above. -/

/-- Program counter of one caller.

* `pre` — about to run `GetToken`'s unlocked cache read (non-forced
  callers start here; forced callers start at `start`);
* `start` — about to run `do`'s mutex-protected entry: non-forced
  cache re-check, then either return, join `inflight`, or become the
  leader of a new `tokenCall` (identified by a fresh `id`);
* `checkCache id` — leader, about to run `fetchAndStore`'s non-forced
  double-check;
* `fetch id` — leader, about to invoke the fetcher (and reject an
  empty token);
* `store id token ttl` — leader, about to run `cache.Set` with the
  recorded TTL (a `Set` error is only logged);
* `publish id res` — leader, about to record `res` on the shared
  `tokenCall` and `close(done)`;
* `clear id res` — leader, about to clear `inflight` (if it still
  points at its call) and return `res`;
* `waiting id` — blocked in `waitTokenCall` on call `id`;
* `done res` — returned with `res`. -/
inductive Phase where
  | pre
  | start
  | checkCache (id : Nat)
  | fetch (id : Nat)
  | store (id : Nat) (token : String) (ttlSeconds : Int)
  | publish (id : Nat) (res : TMRes)
  | clear (id : Nat) (res : TMRes)
  | waiting (id : Nat)
  | done (res : TMRes)
deriving DecidableEq, Repr

/-- Fixed data of a machine run: which callers force a refresh, the
injected fetcher (indexed by invocation number), the configured
expire buffer, and whether `cache.Set` fails (a failing `Set` leaves
the cache unchanged and is only logged). -/
structure MCfg (N : Nat) where
  force : Fin N → Bool
  fetcher : Nat → Except String TokenFetchResult
  expireBufferSeconds : Int
  setFails : Bool

/-- Shared state of a machine run: the cache value under the
manager's key (`none` = miss), the `inflight` call id, the next fresh
call id, the published result of each completed `tokenCall` (`none` =
`done` not yet closed), the number of fetcher invocations so far, each
caller's program counter, and each caller's context-cancellation
flag. -/
structure MState (N : Nat) where
  cache : Option String
  inflight : Option Nat
  nextCall : Nat
  callDone : Nat → Option TMRes
  fetchCount : Nat
  threads : Fin N → Phase
  canceled : Fin N → Bool

/-- Replace caller `i`'s program counter. -/
def MState.setThread {N : Nat} (s : MState N) (i : Fin N) (p : Phase) : MState N :=
  { s with threads := fun j => if j = i then p else s.threads j }

/-- One step of caller `i` at a given program counter, following
`GetToken`/`do`/`fetchAndStore`/`waitTokenCall`; `none` when `i` has
no enabled step (it is done, or blocked in `waitTokenCall` with the
call not yet complete and its context not canceled). -/
def phaseStep {N : Nat} (cfg : MCfg N) (s : MState N) (i : Fin N) :
    Phase → Option (MState N)
  | .pre =>
    match s.cache with
    | some v => some (s.setThread i (.done (v, none)))
    | none => some (s.setThread i .start)
  | .start =>
    match (if cfg.force i then none else s.cache), s.inflight with
    | some v, _ => some (s.setThread i (.done (v, none)))
    | none, some c => some (s.setThread i (.waiting c))
    | none, none =>
      some { s.setThread i (.checkCache s.nextCall) with
             inflight := some s.nextCall, nextCall := s.nextCall + 1 }
  | .checkCache id =>
    match (if cfg.force i then none else s.cache) with
    | some v => some (s.setThread i (.publish id (v, none)))
    | none => some (s.setThread i (.fetch id))
  | .fetch id =>
    let s' := { s with fetchCount := s.fetchCount + 1 }
    match cfg.fetcher s.fetchCount with
    | .error e => some (s'.setThread i (.publish id ("", some (.fetchErr e))))
    | .ok r =>
      if r.Token = "" then
        some (s'.setThread i (.publish id ("", some .emptyToken)))
      else
        some (s'.setThread i
          (.store id r.Token (max (r.ExpiresIn - cfg.expireBufferSeconds) 1)))
  | .store id tok _ =>
    if cfg.setFails then some (s.setThread i (.publish id (tok, none)))
    else some { s.setThread i (.publish id (tok, none)) with cache := some tok }
  | .publish id res =>
    some { s.setThread i (.clear id res) with
           callDone := fun c => if c = id then some res else s.callDone c }
  | .clear id res =>
    some { s.setThread i (.done res) with
           inflight := if s.inflight = some id then none else s.inflight }
  | .waiting c =>
    match s.callDone c with
    | some res => some (s.setThread i (.done res))
    | none => none
  | .done _ => none

/-- One step of caller `i` from its current program counter. -/
def threadStep {N : Nat} (cfg : MCfg N) (s : MState N) (i : Fin N) :
    Option (MState N) :=
  phaseStep cfg s i (s.threads i)

/-- A scheduler action: let caller `i` take its next step, cancel
caller `i`'s context, or let a canceled caller blocked in
`waitTokenCall` take the `ctx.Done()` branch. -/
inductive Act (N : Nat) where
  | run (i : Fin N)
  | cancel (i : Fin N)
  | giveUp (i : Fin N)
deriving DecidableEq, Repr

/-- Apply one scheduler action; `none` when the action is not
enabled. -/
def doAct {N : Nat} (cfg : MCfg N) (s : MState N) : Act N → Option (MState N)
  | .run i => threadStep cfg s i
  | .cancel i => some { s with canceled := fun j => if j = i then true else s.canceled j }
  | .giveUp i =>
    match s.threads i, s.canceled i with
    | .waiting _, true => some (s.setThread i (.done ("", some .ctxCanceled)))
    | _, _ => none

/-- Run a schedule: apply the actions in order, skipping actions that
are not enabled. -/
def runSched {N : Nat} (cfg : MCfg N) (s : MState N) : List (Act N) → MState N
  | [] => s
  | a :: rest =>
    runSched cfg (match doAct cfg s a with | some s' => s' | none => s) rest

/-- Initial machine state: cache content `cache0`, no in-flight call,
no published results, no fetches yet, every caller at its entry point,
no context canceled. -/
def initState {N : Nat} (cfg : MCfg N) (cache0 : Option String) : MState N :=
  { cache := cache0
    inflight := none
    nextCall := 0
    callDone := fun _ => none
    fetchCount := 0
    threads := fun i => if cfg.force i then .start else .pre
    canceled := fun _ => false }

/-- Every caller has returned. -/
def MState.Final {N : Nat} (s : MState N) : Prop :=
  ∀ i, ∃ r, s.threads i = .done r

/-- A schedule with no cancellation actions. -/
def NoCancel {N : Nat} (acts : List (Act N)) : Prop :=
  ∀ a ∈ acts, (∀ i, a ≠ .cancel i) ∧ (∀ i, a ≠ .giveUp i)

/-! ## Spec-side definitions used for refinement comparisons -/

/-- Modelled from the claim's words for comparison with the source:
an entry is live when "the entry's expiresAt is unset (zero) or the
current time is strictly less than expiresAt". -/
def specLive (item : cacheItem) (now : Int) : Bool :=
  match item.expiresAt with
  | none => true
  | some t => now < t

/-- Modelled from the claim's words for comparison with the source:
`Set` "stores an entry that never expires when ttl is zero/unset, and
otherwise stores an entry whose expiry equals now + ttl". -/
def specSetExpiresAt (now ttl : Int) : Option Int :=
  if ttl = 0 then none else some (now + ttl)

/-- Amended liveness predicate: an entry is live when its expiry is
unset or `now ≤ expiresAt` — the code's `time.Now().After(expiresAt)`
is a strict comparison, so the entry is still served at the expiry
instant itself. -/
def liveAt (item : cacheItem) (now : Int) : Bool :=
  match item.expiresAt with
  | none => true
  | some t => now ≤ t

/-! ## Invariants for the single-flight machine -/

/-- The call id a caller owns while it is the leader of an in-flight
`tokenCall` (from becoming the leader in `do`'s entry section until it
returns), `none` for non-leader phases. -/
def leaderId : Phase → Option Nat
  | .checkCache id => some id
  | .fetch id => some id
  | .store id _ _ => some id
  | .publish id _ => some id
  | .clear id _ => some id
  | _ => none

/-- Per-caller invariant of the single-flight machine under a fetcher
that always succeeds with the non-empty token `t`, a working cache,
non-forced callers and an initially empty cache: a leader before its
fetch sees an empty cache and no fetch performed yet; a leader past
its fetch carries the token `t` and the fetch count is 1; a finished
caller either returned `(t, nil)` after the single fetch or returned
its own context-cancellation error. -/
def phaseInvAt (t : String) {N : Nat} (s : MState N) (i : Fin N) : Phase → Prop
  | .checkCache _ => s.cache = none ∧ s.fetchCount = 0
  | .fetch _ => s.cache = none ∧ s.fetchCount = 0
  | .store _ tok _ => tok = t ∧ s.fetchCount = 1
  | .publish _ res => res = (t, none) ∧ s.fetchCount = 1
  | .clear _ res => res = (t, none) ∧ s.fetchCount = 1
  | .done res =>
    (res = (t, none) ∧ s.fetchCount = 1)
    ∨ (res = ("", some .ctxCanceled) ∧ s.canceled i = true)
  | _ => True

/-- `phaseInvAt` applied at the caller's current program counter. -/
def phaseInv (t : String) {N : Nat} (s : MState N) (i : Fin N) : Prop :=
  phaseInvAt t s i (s.threads i)

/-- Global invariant of the single-flight machine (same instantiation
as `phaseInv`): at most one fetch ever happens, the cache and every
published `tokenCall` result only ever hold `(t, nil)` after that one
fetch, a leader's call id is exactly the one in `inflight`, there is
at most one leader, and once the fetch happened the token is either
already cached or the leader is just about to cache it. -/
structure SFInv (t : String) {N : Nat} (s : MState N) : Prop where
  fetchLe : s.fetchCount ≤ 1
  cacheInv : ∀ v, s.cache = some v → v = t ∧ s.fetchCount = 1
  callInv : ∀ c r, s.callDone c = some r → r = (t, none) ∧ s.fetchCount = 1
  leaderInflight : ∀ i id, leaderId (s.threads i) = some id → s.inflight = some id
  leaderUnique : ∀ i j, (leaderId (s.threads i)).isSome = true →
    (leaderId (s.threads j)).isSome = true → i = j
  phases : ∀ i, phaseInv t s i
  fetchedState : s.fetchCount = 1 →
    s.cache = some t ∨ ∃ i id tok ttl, s.threads i = .store id tok ttl

/-- No caller's context has been canceled. -/
def AllUncanceled {N : Nat} (s : MState N) : Prop :=
  ∀ i, s.canceled i = false

/-- A generic invariant over all configurations: every result a caller
can return or publish pairs a `some` error with the empty token
string. -/
def errEmpty (r : TMRes) : Prop := r.2.isSome = true → r.1 = ""

/-- Per-caller part of the empty-token-on-error invariant. -/
def phaseErrEmpty : Phase → Prop
  | .publish _ res => errEmpty res
  | .clear _ res => errEmpty res
  | .done res => errEmpty res
  | _ => True

/-- Empty-token-on-error invariant: every published and every returned
result satisfies `errEmpty`. -/
def EmptyErrInv {N : Nat} (s : MState N) : Prop :=
  (∀ c r, s.callDone c = some r → errEmpty r) ∧ ∀ i, phaseErrEmpty (s.threads i)

/-! ## Concrete runs used by the witnesses -/

/-- The empty cache, used by the C8 theorems. -/
def c8base : MemoryCache := ⟨fun _ => none⟩

/-- Two non-forced callers, a fetcher that always returns
`("tok", 7200)`, buffer 300, working cache (C1 witness). -/
def cfgA : MCfg 2 :=
  { force := fun _ => false
    fetcher := fun _ => .ok ⟨"tok", 7200⟩
    expireBufferSeconds := 300
    setFails := false }

/-- Schedule for the C1 witness: caller 0 runs to completion, then
caller 1 reads the cached token. -/
def actsA : List (Act 2) :=
  [.run 0, .run 0, .run 0, .run 0, .run 0, .run 0, .run 0, .run 1, .run 1]

/-- Three non-forced callers, fetcher `("tok", 7200)` (C6 witness). -/
def cfgB : MCfg 3 :=
  { force := fun _ => false
    fetcher := fun _ => .ok ⟨"tok", 7200⟩
    expireBufferSeconds := 300
    setFails := false }

/-- Schedule for the C6 witness: caller 0 becomes the leader, callers
1 and 2 join the in-flight call, caller 1's context is canceled and it
gives up, the leader completes, caller 2 receives the leader's
result. -/
def actsB : List (Act 3) :=
  [.run 0, .run 0, .run 1, .run 1, .run 2, .run 2,
   .cancel 1, .giveUp 1,
   .run 0, .run 0, .run 0, .run 0, .run 0, .run 2]

/-- One forced caller whose fetcher fails (C10 witness). -/
def cfgC : MCfg 1 :=
  { force := fun _ => true
    fetcher := fun _ => .error "boom"
    expireBufferSeconds := 300
    setFails := false }

/-- Schedule for the C10 witness: the lone caller becomes the leader,
fetches, fails, publishes the failure and returns it. -/
def actsC : List (Act 1) :=
  [.run 0, .run 0, .run 0, .run 0, .run 0]

/-! ## Machine lemmas -/

@[simp]
theorem setThread_cache {N : Nat} (s : MState N) (i : Fin N) (p : Phase) :
    (s.setThread i p).cache = s.cache := rfl

@[simp]
theorem setThread_inflight {N : Nat} (s : MState N) (i : Fin N) (p : Phase) :
    (s.setThread i p).inflight = s.inflight := rfl

@[simp]
theorem setThread_nextCall {N : Nat} (s : MState N) (i : Fin N) (p : Phase) :
    (s.setThread i p).nextCall = s.nextCall := rfl

@[simp]
theorem setThread_callDone {N : Nat} (s : MState N) (i : Fin N) (p : Phase) :
    (s.setThread i p).callDone = s.callDone := rfl

@[simp]
theorem setThread_fetchCount {N : Nat} (s : MState N) (i : Fin N) (p : Phase) :
    (s.setThread i p).fetchCount = s.fetchCount := rfl

@[simp]
theorem setThread_canceled {N : Nat} (s : MState N) (i : Fin N) (p : Phase) :
    (s.setThread i p).canceled = s.canceled := rfl

@[simp]
theorem setThread_threads_self {N : Nat} (s : MState N) (i : Fin N) (p : Phase) :
    (s.setThread i p).threads i = p := by
  simp [MState.setThread]

theorem setThread_threads_ne {N : Nat} {s : MState N} {i j : Fin N} {p : Phase}
    (hj : j ≠ i) : (s.setThread i p).threads j = s.threads j := by
  simp [MState.setThread, hj]

/-- `phaseInvAt` only looks at the cache, the fetch count and the
caller's cancellation flag, the flag only monotonically. -/
theorem phaseInvAt_mono {t : String} {N : Nat} {s s' : MState N} {j : Fin N}
    (hc : s'.cache = s.cache) (hf : s'.fetchCount = s.fetchCount)
    (hk : s.canceled j = true → s'.canceled j = true) (p : Phase)
    (h : phaseInvAt t s j p) : phaseInvAt t s' j p := by
  cases p <;> simp only [phaseInvAt, hc, hf] <;> try exact h
  have h' : (_ = ((t : String), (none : Option TMErr)) ∧ s.fetchCount = 1)
      ∨ (_ = (("" : String), some TMErr.ctxCanceled) ∧ s.canceled j = true) := h
  rcases h' with hl | ⟨h1, h2⟩
  · exact .inl hl
  · exact .inr ⟨h1, hk h2⟩

/-- `phaseInv` only looks at the caller's phase, the cache, the fetch
count and the caller's cancellation flag. -/
theorem phaseInv_mono {t : String} {N : Nat} {s s' : MState N} {j : Fin N}
    (hth : s'.threads j = s.threads j) (hc : s'.cache = s.cache)
    (hf : s'.fetchCount = s.fetchCount)
    (hk : s.canceled j = true → s'.canceled j = true)
    (h : phaseInv t s j) : phaseInv t s' j := by
  unfold phaseInv
  rw [hth]
  exact phaseInvAt_mono hc hf hk _ h

theorem phaseInv_congr {t : String} {N : Nat} {s s' : MState N} {j : Fin N}
    (hth : s'.threads j = s.threads j) (hc : s'.cache = s.cache)
    (hf : s'.fetchCount = s.fetchCount) (hk : s'.canceled j = s.canceled j)
    (h : phaseInv t s j) : phaseInv t s' j :=
  phaseInv_mono hth hc hf (fun hx => by rw [hk]; exact hx) h

/-- Transfer `SFInv` across a pure phase change of one caller that
keeps its `leaderId` and involves no `store` phase on either side. -/
theorem SFInv_setThread {t : String} {N : Nat} {s : MState N} {i : Fin N}
    {p : Phase} (h : SFInv t s)
    (hsame : leaderId p = leaderId (s.threads i))
    (hnso : ∀ id tok ttl, s.threads i ≠ .store id tok ttl)
    (hphase : phaseInv t (s.setThread i p) i) :
    SFInv t (s.setThread i p) := by
  refine ⟨h.fetchLe, h.cacheInv, h.callInv, ?_, ?_, ?_, ?_⟩
  · intro j id hj
    rcases eq_or_ne j i with hji | hji
    · rw [hji, setThread_threads_self] at hj
      exact h.leaderInflight i id (hsame ▸ hj)
    · rw [setThread_threads_ne hji] at hj
      exact h.leaderInflight j id hj
  · intro j k hj hk
    rcases eq_or_ne j i with hji | hji
    · rcases eq_or_ne k i with hki | hki
      · rw [hji, hki]
      · rw [hji, setThread_threads_self] at hj
        rw [setThread_threads_ne hki] at hk
        rw [hji]
        exact h.leaderUnique i k (by rw [← hsame]; exact hj) hk
    · rw [setThread_threads_ne hji] at hj
      rcases eq_or_ne k i with hki | hki
      · rw [hki, setThread_threads_self] at hk
        rw [hki]
        exact h.leaderUnique j i hj (by rw [← hsame]; exact hk)
      · rw [setThread_threads_ne hki] at hk
        exact h.leaderUnique j k hj hk
  · intro j
    rcases eq_or_ne j i with hji | hji
    · rw [hji]
      exact hphase
    · exact phaseInv_congr (setThread_threads_ne hji) rfl rfl rfl (h.phases j)
  · intro hfc
    rcases h.fetchedState hfc with hcache | ⟨j, id, tok, ttl, hj⟩
    · exact .inl hcache
    · rcases eq_or_ne j i with hji | hji
      · rw [hji] at hj
        exact absurd hj (hnso id tok ttl)
      · exact .inr ⟨j, id, tok, ttl, by rw [setThread_threads_ne hji]; exact hj⟩

/-- Preservation of `SFInv` by every scheduler action, for non-forced
callers over a fetcher that always returns the non-empty token `t` and
a working cache. -/
theorem SFInv_step {N : Nat} {cfg : MCfg N} {t : String} {L : Int}
    (hforce : ∀ i, cfg.force i = false)
    (hfetch : ∀ k, cfg.fetcher k = Except.ok ⟨t, L⟩)
    (ht : t ≠ "") (hset : cfg.setFails = false)
    {s s' : MState N} (h : SFInv t s) (a : Act N)
    (ha : doAct cfg s a = some s') : SFInv t s' := by
  cases a with
  | cancel i =>
    simp only [doAct] at ha
    injection ha with ha
    subst ha
    refine ⟨h.fetchLe, h.cacheInv, h.callInv, h.leaderInflight, h.leaderUnique,
      ?_, h.fetchedState⟩
    intro j
    have hth : ({ s with canceled := fun j => if j = i then true else s.canceled j } :
        MState N).threads j = s.threads j := rfl
    refine phaseInv_mono hth rfl rfl ?_ (h.phases j)
    intro hx
    show (if j = i then true else s.canceled j) = true
    by_cases hji : j = i <;> simp [hji, hx]
  | giveUp i =>
    simp only [doAct] at ha
    cases hp : s.threads i <;> rw [hp] at ha <;>
      cases hcanc : s.canceled i <;> rw [hcanc] at ha <;>
      try exact Option.noConfusion ha
    rename_i c
    injection ha with ha
    subst ha
    refine SFInv_setThread h (by rw [hp]; rfl) (by simp [hp]) ?_
    unfold phaseInv
    rw [setThread_threads_self]
    exact .inr ⟨rfl, hcanc⟩
  | run i =>
    simp only [doAct, threadStep] at ha
    cases hp : s.threads i with
    | pre =>
      rw [hp] at ha
      simp only [phaseStep] at ha
      cases hc : s.cache with
      | some v =>
        rw [hc] at ha
        injection ha with ha
        subst ha
        obtain ⟨hvt, hfc1⟩ := h.cacheInv v hc
        refine SFInv_setThread h (by rw [hp]; rfl) (by simp [hp]) ?_
        unfold phaseInv
        rw [setThread_threads_self]
        exact .inl ⟨by rw [hvt], hfc1⟩
      | none =>
        rw [hc] at ha
        injection ha with ha
        subst ha
        refine SFInv_setThread h (by rw [hp]; rfl) (by simp [hp]) ?_
        unfold phaseInv
        rw [setThread_threads_self]
        trivial
    | start =>
      rw [hp] at ha
      simp only [phaseStep] at ha
      have hcond : (if cfg.force i then (none : Option String) else s.cache) = s.cache := by
        rw [hforce i]
        rfl
      rw [hcond] at ha
      cases hc : s.cache with
      | some v =>
        rw [hc] at ha
        injection ha with ha
        subst ha
        obtain ⟨hvt, hfc1⟩ := h.cacheInv v hc
        refine SFInv_setThread h (by rw [hp]; rfl) (by simp [hp]) ?_
        unfold phaseInv
        rw [setThread_threads_self]
        exact .inl ⟨by rw [hvt], hfc1⟩
      | none =>
        rw [hc] at ha
        cases hinf : s.inflight with
        | some c =>
          rw [hinf] at ha
          injection ha with ha
          subst ha
          refine SFInv_setThread h (by rw [hp]; rfl) (by simp [hp]) ?_
          unfold phaseInv
          rw [setThread_threads_self]
          trivial
        | none =>
          rw [hinf] at ha
          injection ha with ha
          subst ha
          have hnolead : ∀ j id', leaderId (s.threads j) ≠ some id' := by
            intro j id' hj
            have hj2 := h.leaderInflight j id' hj
            rw [hinf] at hj2
            exact Option.noConfusion hj2
          have hfc0 : s.fetchCount = 0 := by
            rcases Nat.eq_or_lt_of_le h.fetchLe with hfc1 | hlt
            · exfalso
              rcases h.fetchedState hfc1 with hcache | ⟨j, id', tok, ttl, hj⟩
              · rw [hc] at hcache
                exact Option.noConfusion hcache
              · exact hnolead j id' (by rw [hj]; rfl)
            · omega
          refine ⟨h.fetchLe, ?_, h.callInv, ?_, ?_, ?_, ?_⟩
          · intro v hv
            have hv' : s.cache = some v := hv
            rw [hc] at hv'
            exact Option.noConfusion hv'
          · intro j id' hj
            rcases eq_or_ne j i with hji | hji
            · rw [hji] at hj
              simp only [setThread_threads_self] at hj
              have hj' : some s.nextCall = some id' := hj
              injection hj' with hj''
            · have hj' : leaderId (s.threads j) = some id' := by
                rw [← setThread_threads_ne (s := s) (i := i)
                  (p := Phase.checkCache s.nextCall) hji]
                exact hj
              exact absurd hj' (hnolead j id')
          · intro j k hj hk
            rcases eq_or_ne j i with hji | hji
            · rcases eq_or_ne k i with hki | hki
              · rw [hji, hki]
              · exfalso
                have hk' : leaderId (s.threads k) ≠ none := by
                  rw [setThread_threads_ne hki] at hk
                  intro hzero
                  rw [hzero] at hk
                  exact Bool.noConfusion hk
                rcases ho : leaderId (s.threads k) with _ | id'
                · exact hk' ho
                · exact hnolead k id' ho
            · exfalso
              have hj' : leaderId (s.threads j) ≠ none := by
                rw [setThread_threads_ne hji] at hj
                intro hzero
                rw [hzero] at hj
                exact Bool.noConfusion hj
              rcases ho : leaderId (s.threads j) with _ | id'
              · exact hj' ho
              · exact hnolead j id' ho
          · intro j
            rcases eq_or_ne j i with hji | hji
            · rw [hji]
              unfold phaseInv
              have hth : ({ s.setThread i (Phase.checkCache s.nextCall) with
                  inflight := some s.nextCall,
                  nextCall := s.nextCall + 1 } : MState N).threads i
                  = Phase.checkCache s.nextCall := by
                simp [MState.setThread]
              rw [hth]
              exact ⟨hc, hfc0⟩
            · unfold phaseInv
              have hth : ({ s.setThread i (Phase.checkCache s.nextCall) with
                  inflight := some s.nextCall,
                  nextCall := s.nextCall + 1 } : MState N).threads j
                  = s.threads j := by
                simp [MState.setThread, hji]
              rw [hth]
              exact phaseInvAt_mono rfl rfl (fun hx => hx) _ (h.phases j)
          · intro hfc1
            have hfc1' : s.fetchCount = 1 := hfc1
            rw [hfc0] at hfc1'
            exact absurd hfc1' (by omega)
    | checkCache id =>
      rw [hp] at ha
      simp only [phaseStep] at ha
      obtain ⟨hc, hfc0⟩ : s.cache = none ∧ s.fetchCount = 0 := by
        have hph := h.phases i
        unfold phaseInv at hph
        rw [hp] at hph
        exact hph
      have hcond : (if cfg.force i then (none : Option String) else s.cache) = s.cache := by
        rw [hforce i]
        rfl
      rw [hcond, hc] at ha
      injection ha with ha
      subst ha
      refine SFInv_setThread h (by rw [hp]; rfl) (by simp [hp]) ?_
      unfold phaseInv
      rw [setThread_threads_self]
      exact ⟨hc, hfc0⟩
    | fetch id =>
      rw [hp] at ha
      simp only [phaseStep] at ha
      obtain ⟨hc, hfc0⟩ : s.cache = none ∧ s.fetchCount = 0 := by
        have hph := h.phases i
        unfold phaseInv at hph
        rw [hp] at hph
        exact hph
      simp only [hfetch s.fetchCount] at ha
      rw [if_neg ht] at ha
      injection ha with ha
      subst ha
      refine ⟨?_, ?_, ?_, ?_, ?_, ?_, ?_⟩
      · show s.fetchCount + 1 ≤ 1
        omega
      · intro v hv
        have hv' : s.cache = some v := hv
        rw [hc] at hv'
        exact Option.noConfusion hv'
      · intro c r hr
        obtain ⟨hr1, _⟩ := h.callInv c r hr
        exact ⟨hr1, by show s.fetchCount + 1 = 1; omega⟩
      · intro j id' hj
        rcases eq_or_ne j i with hji | hji
        · rw [hji, setThread_threads_self] at hj
          have hj' : (some id : Option Nat) = some id' := hj
          injection hj' with hj''
          rw [← hj'']
          exact h.leaderInflight i id (by rw [hp]; rfl)
        · rw [setThread_threads_ne hji] at hj
          exact h.leaderInflight j id' hj
      · intro j k hj hk
        have hlift : ∀ m : Fin N,
            (leaderId ((({ s with fetchCount := s.fetchCount + 1 } : MState N).setThread
              i (Phase.store id t (max (L - cfg.expireBufferSeconds) 1))).threads m)).isSome
              = true →
            (leaderId (s.threads m)).isSome = true := by
          intro m hm
          rcases eq_or_ne m i with hmi | hmi
          · rw [hmi, hp]
            rfl
          · rw [setThread_threads_ne hmi] at hm
            exact hm
        exact h.leaderUnique j k (hlift j hj) (hlift k hk)
      · intro j
        rcases eq_or_ne j i with hji | hji
        · rw [hji]
          unfold phaseInv
          rw [setThread_threads_self]
          exact ⟨rfl, by show s.fetchCount + 1 = 1; omega⟩
        · unfold phaseInv
          rw [setThread_threads_ne hji]
          have hq := h.phases j
          unfold phaseInv at hq
          cases hqe : s.threads j with
          | checkCache id2 =>
            exact absurd (h.leaderUnique j i (by rw [hqe]; rfl) (by rw [hp]; rfl)) hji
          | fetch id2 =>
            exact absurd (h.leaderUnique j i (by rw [hqe]; rfl) (by rw [hp]; rfl)) hji
          | store id2 tok2 ttl2 =>
            exact absurd (h.leaderUnique j i (by rw [hqe]; rfl) (by rw [hp]; rfl)) hji
          | publish id2 res2 =>
            exact absurd (h.leaderUnique j i (by rw [hqe]; rfl) (by rw [hp]; rfl)) hji
          | clear id2 res2 =>
            exact absurd (h.leaderUnique j i (by rw [hqe]; rfl) (by rw [hp]; rfl)) hji
          | done res2 =>
            rw [hqe] at hq
            have hq' : (res2 = ((t : String), (none : Option TMErr))
                ∧ s.fetchCount = 1)
                ∨ (res2 = (("" : String), some TMErr.ctxCanceled)
                ∧ s.canceled j = true) := hq
            rcases hq' with ⟨_, hfc1⟩ | ⟨h1, h2⟩
            · rw [hfc0] at hfc1
              exact absurd hfc1 (by omega)
            · exact .inr ⟨h1, h2⟩
          | pre => trivial
          | start => trivial
          | waiting c => trivial
      · intro _
        refine .inr ⟨i, id, t, max (L - cfg.expireBufferSeconds) 1, ?_⟩
        rw [setThread_threads_self]
    | store id tok ttl =>
      rw [hp] at ha
      simp only [phaseStep] at ha
      rw [hset] at ha
      simp only [Bool.false_eq_true, if_false] at ha
      injection ha with ha
      subst ha
      obtain ⟨htok, hfc1⟩ : tok = t ∧ s.fetchCount = 1 := by
        have hph := h.phases i
        unfold phaseInv at hph
        rw [hp] at hph
        exact hph
      subst htok
      refine ⟨h.fetchLe, ?_, ?_, ?_, ?_, ?_, ?_⟩
      · intro v hv
        have hv' : some tok = some v := hv
        injection hv' with hv''
        exact ⟨hv''.symm, hfc1⟩
      · exact h.callInv
      · intro j id' hj
        rcases eq_or_ne j i with hji | hji
        · rw [hji] at hj
          have hth : ({ s.setThread i (Phase.publish id (tok, none)) with
              cache := some tok } : MState N).threads i
              = Phase.publish id (tok, none) := by
            simp [MState.setThread]
          rw [hth] at hj
          have hj' : (some id : Option Nat) = some id' := hj
          injection hj' with hj''
          rw [← hj'']
          exact h.leaderInflight i id (by rw [hp]; rfl)
        · have hth : ({ s.setThread i (Phase.publish id (tok, none)) with
              cache := some tok } : MState N).threads j = s.threads j := by
            simp [MState.setThread, hji]
          rw [hth] at hj
          exact h.leaderInflight j id' hj
      · intro j k hj hk
        have hlift : ∀ m : Fin N,
            (leaderId ((({ s.setThread i (Phase.publish id (tok, none)) with
              cache := some tok } : MState N)).threads m)).isSome = true →
            (leaderId (s.threads m)).isSome = true := by
          intro m hm
          rcases eq_or_ne m i with hmi | hmi
          · rw [hmi, hp]
            rfl
          · have hth : ({ s.setThread i (Phase.publish id (tok, none)) with
                cache := some tok } : MState N).threads m = s.threads m := by
              simp [MState.setThread, hmi]
            rw [hth] at hm
            exact hm
        exact h.leaderUnique j k (hlift j hj) (hlift k hk)
      · intro j
        rcases eq_or_ne j i with hji | hji
        · rw [hji]
          unfold phaseInv
          have hth : ({ s.setThread i (Phase.publish id (tok, none)) with
              cache := some tok } : MState N).threads i
              = Phase.publish id (tok, none) := by
            simp [MState.setThread]
          rw [hth]
          exact ⟨rfl, hfc1⟩
        · unfold phaseInv
          have hth : ({ s.setThread i (Phase.publish id (tok, none)) with
              cache := some tok } : MState N).threads j = s.threads j := by
            simp [MState.setThread, hji]
          rw [hth]
          have hq := h.phases j
          unfold phaseInv at hq
          cases hqe : s.threads j with
          | checkCache id2 =>
            exact absurd (h.leaderUnique j i (by rw [hqe]; rfl) (by rw [hp]; rfl)) hji
          | fetch id2 =>
            exact absurd (h.leaderUnique j i (by rw [hqe]; rfl) (by rw [hp]; rfl)) hji
          | store id2 tok2 ttl2 =>
            rw [hqe] at hq
            exact hq
          | publish id2 res2 =>
            rw [hqe] at hq
            exact hq
          | clear id2 res2 =>
            rw [hqe] at hq
            exact hq
          | done res2 =>
            rw [hqe] at hq
            exact hq
          | pre => trivial
          | start => trivial
          | waiting c => trivial
      · intro _
        exact .inl rfl
    | publish id res =>
      rw [hp] at ha
      simp only [phaseStep] at ha
      injection ha with ha
      subst ha
      obtain ⟨hres, hfc1⟩ : res = (t, none) ∧ s.fetchCount = 1 := by
        have hph := h.phases i
        unfold phaseInv at hph
        rw [hp] at hph
        exact hph
      refine ⟨h.fetchLe, h.cacheInv, ?_, ?_, ?_, ?_, ?_⟩
      · intro c r hr
        have hr' : (if c = id then some res else s.callDone c) = some r := hr
        by_cases hcid : c = id
        · rw [if_pos hcid] at hr'
          injection hr' with hr''
          rw [← hr'']
          exact ⟨hres, hfc1⟩
        · rw [if_neg hcid] at hr'
          exact h.callInv c r hr'
      · intro j id' hj
        rcases eq_or_ne j i with hji | hji
        · rw [hji] at hj
          have hth : ({ s.setThread i (Phase.clear id res) with
              callDone := fun c => if c = id then some res else s.callDone c } :
              MState N).threads i = Phase.clear id res := by
            simp [MState.setThread]
          rw [hth] at hj
          have hj' : (some id : Option Nat) = some id' := hj
          injection hj' with hj''
          rw [← hj'']
          exact h.leaderInflight i id (by rw [hp]; rfl)
        · have hth : ({ s.setThread i (Phase.clear id res) with
              callDone := fun c => if c = id then some res else s.callDone c } :
              MState N).threads j = s.threads j := by
            simp [MState.setThread, hji]
          rw [hth] at hj
          exact h.leaderInflight j id' hj
      · intro j k hj hk
        have hlift : ∀ m : Fin N,
            (leaderId ((({ s.setThread i (Phase.clear id res) with
              callDone := fun c => if c = id then some res else s.callDone c } :
              MState N)).threads m)).isSome = true →
            (leaderId (s.threads m)).isSome = true := by
          intro m hm
          rcases eq_or_ne m i with hmi | hmi
          · rw [hmi, hp]
            rfl
          · have hth : ({ s.setThread i (Phase.clear id res) with
                callDone := fun c => if c = id then some res else s.callDone c } :
                MState N).threads m = s.threads m := by
              simp [MState.setThread, hmi]
            rw [hth] at hm
            exact hm
        exact h.leaderUnique j k (hlift j hj) (hlift k hk)
      · intro j
        rcases eq_or_ne j i with hji | hji
        · rw [hji]
          unfold phaseInv
          have hth : ({ s.setThread i (Phase.clear id res) with
              callDone := fun c => if c = id then some res else s.callDone c } :
              MState N).threads i = Phase.clear id res := by
            simp [MState.setThread]
          rw [hth]
          exact ⟨hres, hfc1⟩
        · unfold phaseInv
          have hth : ({ s.setThread i (Phase.clear id res) with
              callDone := fun c => if c = id then some res else s.callDone c } :
              MState N).threads j = s.threads j := by
            simp [MState.setThread, hji]
          rw [hth]
          exact phaseInvAt_mono rfl rfl (fun hx => hx) _ (h.phases j)
      · intro hfc
        rcases h.fetchedState hfc with hcache | ⟨j, id2, tok2, ttl2, hj⟩
        · exact .inl hcache
        · rcases eq_or_ne j i with hji | hji
          · rw [hji, hp] at hj
            exact Phase.noConfusion hj
          · refine .inr ⟨j, id2, tok2, ttl2, ?_⟩
            have hth : ({ s.setThread i (Phase.clear id res) with
                callDone := fun c => if c = id then some res else s.callDone c } :
                MState N).threads j = s.threads j := by
              simp [MState.setThread, hji]
            rw [hth]
            exact hj
    | clear id res =>
      rw [hp] at ha
      simp only [phaseStep] at ha
      injection ha with ha
      subst ha
      obtain ⟨hres, hfc1⟩ : res = (t, none) ∧ s.fetchCount = 1 := by
        have hph := h.phases i
        unfold phaseInv at hph
        rw [hp] at hph
        exact hph
      have hth_self : ({ s.setThread i (Phase.done res) with
          inflight := if s.inflight = some id then none else s.inflight } :
          MState N).threads i = Phase.done res := by
        simp [MState.setThread]
      have hth_ne : ∀ j : Fin N, j ≠ i →
          ({ s.setThread i (Phase.done res) with
            inflight := if s.inflight = some id then none else s.inflight } :
            MState N).threads j = s.threads j := by
        intro j hji
        simp [MState.setThread, hji]
      refine ⟨h.fetchLe, h.cacheInv, h.callInv, ?_, ?_, ?_, ?_⟩
      · intro j id' hj
        rcases eq_or_ne j i with hji | hji
        · rw [hji, hth_self] at hj
          exact Option.noConfusion hj
        · rw [hth_ne j hji] at hj
          exact absurd (h.leaderUnique j i (by rw [hj]; rfl) (by rw [hp]; rfl)) hji
      · intro j k hj hk
        exfalso
        rcases eq_or_ne j i with hji | hji
        · rw [hji, hth_self] at hj
          exact Bool.noConfusion hj
        · rw [hth_ne j hji] at hj
          rcases ho : leaderId (s.threads j) with _ | id2
          · rw [ho] at hj
            exact Bool.noConfusion hj
          · exact hji (h.leaderUnique j i (by rw [ho]; rfl) (by rw [hp]; rfl))
      · intro j
        rcases eq_or_ne j i with hji | hji
        · rw [hji]
          unfold phaseInv
          rw [hth_self]
          exact .inl ⟨hres, hfc1⟩
        · unfold phaseInv
          rw [hth_ne j hji]
          exact phaseInvAt_mono rfl rfl (fun hx => hx) _ (h.phases j)
      · intro hfc
        rcases h.fetchedState hfc with hcache | ⟨j, id2, tok2, ttl2, hj⟩
        · exact .inl hcache
        · rcases eq_or_ne j i with hji | hji
          · rw [hji, hp] at hj
            exact Phase.noConfusion hj
          · refine .inr ⟨j, id2, tok2, ttl2, ?_⟩
            rw [hth_ne j hji]
            exact hj
    | waiting c =>
      rw [hp] at ha
      simp only [phaseStep] at ha
      cases hcd : s.callDone c with
      | none =>
        rw [hcd] at ha
        exact Option.noConfusion ha
      | some res =>
        rw [hcd] at ha
        injection ha with ha
        subst ha
        obtain ⟨hres, hfc1⟩ := h.callInv c res hcd
        refine SFInv_setThread h (by rw [hp]; rfl) (by simp [hp]) ?_
        unfold phaseInv
        rw [setThread_threads_self]
        exact .inl ⟨hres, hfc1⟩
    | done res =>
      rw [hp] at ha
      simp only [phaseStep] at ha
      exact Option.noConfusion ha

/-- The initial state satisfies `SFInv` when the cache starts empty
and no caller forces a refresh. -/
theorem SFInv_init {N : Nat} (cfg : MCfg N) (t : String)
    (hforce : ∀ i, cfg.force i = false) : SFInv t (initState cfg none) := by
  have hth : ∀ i, (initState cfg none (N := N)).threads i = Phase.pre := by
    intro i
    show (if cfg.force i then Phase.start else Phase.pre) = Phase.pre
    rw [hforce i]
    rfl
  refine ⟨Nat.zero_le 1, ?_, ?_, ?_, ?_, ?_, ?_⟩
  · intro v hv
    exact Option.noConfusion hv
  · intro c r hr
    exact Option.noConfusion hr
  · intro i id hj
    rw [hth i] at hj
    exact Option.noConfusion hj
  · intro i j hi hj
    rw [hth i] at hi
    exact Bool.noConfusion hi
  · intro i
    unfold phaseInv
    rw [hth i]
    trivial
  · intro hfc
    exact absurd hfc (by simp [initState])

/-- `SFInv` holds after any schedule from an `SFInv` state. -/
theorem SFInv_run {N : Nat} {cfg : MCfg N} {t : String} {L : Int}
    (hforce : ∀ i, cfg.force i = false)
    (hfetch : ∀ k, cfg.fetcher k = Except.ok ⟨t, L⟩)
    (ht : t ≠ "") (hset : cfg.setFails = false)
    {s : MState N} (h : SFInv t s) (acts : List (Act N)) :
    SFInv t (runSched cfg s acts) := by
  induction acts generalizing s with
  | nil => exact h
  | cons a rest ih =>
    simp only [runSched]
    cases hd : doAct cfg s a with
    | none =>
      exact ih h
    | some s2 =>
      exact ih (SFInv_step hforce hfetch ht hset h a hd)

/-- A caller's step never touches any cancellation flag. -/
theorem phaseStep_canceled {N : Nat} {cfg : MCfg N} {s s' : MState N}
    {i : Fin N} {p : Phase}
    (h : phaseStep cfg s i p = some s') : s'.canceled = s.canceled := by
  cases p <;> simp only [phaseStep] at h <;>
    (repeat' split at h) <;>
    (try exact Option.noConfusion h) <;>
    (injection h with h; subst h; rfl)

/-- Schedules without cancellation actions keep every flag down. -/
theorem runSched_uncanceled {N : Nat} {cfg : MCfg N} {s : MState N}
    (acts : List (Act N)) (hnc : NoCancel acts) (h : AllUncanceled s) :
    AllUncanceled (runSched cfg s acts) := by
  induction acts generalizing s with
  | nil => exact h
  | cons a rest ih =>
    have hna := hnc a (List.mem_cons_self a rest)
    have hrest : NoCancel rest := fun b hb => hnc b (List.mem_cons_of_mem a hb)
    simp only [runSched]
    cases hd : doAct cfg s a with
    | none =>
      exact ih hrest h
    | some s2 =>
      refine ih hrest ?_
      cases a with
      | cancel i => exact absurd rfl (hna.1 i)
      | giveUp i => exact absurd rfl (hna.2 i)
      | run i =>
        simp only [doAct, threadStep] at hd
        intro m
        rw [phaseStep_canceled hd]
        exact h m

/-- Transfer `EmptyErrInv` across one caller's phase change. -/
theorem EmptyErrInv_of {N : Nat} {s s' : MState N} {i : Fin N} {p : Phase}
    (h : EmptyErrInv s)
    (hself : s'.threads i = p)
    (hne : ∀ j, j ≠ i → s'.threads j = s.threads j)
    (hcd : ∀ c r, s'.callDone c = some r → errEmpty r ∨ s.callDone c = some r)
    (hp : phaseErrEmpty p) : EmptyErrInv s' := by
  constructor
  · intro c r hr
    rcases hcd c r hr with he | hold
    · exact he
    · exact h.1 c r hold
  · intro j
    rcases eq_or_ne j i with hji | hji
    · rw [hji, hself]
      exact hp
    · rw [hne j hji]
      exact h.2 j

/-- Preservation of `EmptyErrInv` by every scheduler action, for every
configuration. -/
theorem EmptyErrInv_step {N : Nat} {cfg : MCfg N} {s s' : MState N}
    (h : EmptyErrInv s) (a : Act N)
    (ha : doAct cfg s a = some s') : EmptyErrInv s' := by
  cases a with
  | cancel i =>
    simp only [doAct] at ha
    injection ha with ha
    subst ha
    exact h
  | giveUp i =>
    simp only [doAct] at ha
    cases hp : s.threads i <;> rw [hp] at ha <;>
      cases hcanc : s.canceled i <;> rw [hcanc] at ha <;>
      try exact Option.noConfusion ha
    injection ha with ha
    subst ha
    refine EmptyErrInv_of h (setThread_threads_self _ _ _)
      (fun j hji => setThread_threads_ne hji) (fun c r hr => .inr hr) ?_
    intro _
    rfl
  | run i =>
    simp only [doAct, threadStep] at ha
    cases hp : s.threads i with
    | pre =>
      rw [hp] at ha
      simp only [phaseStep] at ha
      cases hc : s.cache with
      | some v =>
        rw [hc] at ha
        injection ha with ha
        subst ha
        refine EmptyErrInv_of h (setThread_threads_self _ _ _)
          (fun j hji => setThread_threads_ne hji) (fun c r hr => .inr hr) ?_
        intro hx
        exact Bool.noConfusion hx
      | none =>
        rw [hc] at ha
        injection ha with ha
        subst ha
        exact EmptyErrInv_of h (setThread_threads_self _ _ _)
          (fun j hji => setThread_threads_ne hji) (fun c r hr => .inr hr) trivial
    | start =>
      rw [hp] at ha
      simp only [phaseStep] at ha
      cases hcond : (if cfg.force i then (none : Option String) else s.cache) with
      | some v =>
        rw [hcond] at ha
        injection ha with ha
        subst ha
        refine EmptyErrInv_of h (setThread_threads_self _ _ _)
          (fun j hji => setThread_threads_ne hji) (fun c r hr => .inr hr) ?_
        intro hx
        exact Bool.noConfusion hx
      | none =>
        rw [hcond] at ha
        cases hinf : s.inflight with
        | some c =>
          rw [hinf] at ha
          injection ha with ha
          subst ha
          exact EmptyErrInv_of h (setThread_threads_self _ _ _)
            (fun j hji => setThread_threads_ne hji) (fun c r hr => .inr hr) trivial
        | none =>
          rw [hinf] at ha
          injection ha with ha
          subst ha
          refine EmptyErrInv_of (i := i) (p := Phase.checkCache s.nextCall) h (by simp [MState.setThread])
            (fun j hji => by simp [MState.setThread, hji])
            (fun c r hr => .inr hr) trivial
    | checkCache id =>
      rw [hp] at ha
      simp only [phaseStep] at ha
      cases hcond : (if cfg.force i then (none : Option String) else s.cache) with
      | some v =>
        rw [hcond] at ha
        injection ha with ha
        subst ha
        refine EmptyErrInv_of h (setThread_threads_self _ _ _)
          (fun j hji => setThread_threads_ne hji) (fun c r hr => .inr hr) ?_
        intro hx
        exact Bool.noConfusion hx
      | none =>
        rw [hcond] at ha
        injection ha with ha
        subst ha
        exact EmptyErrInv_of h (setThread_threads_self _ _ _)
          (fun j hji => setThread_threads_ne hji) (fun c r hr => .inr hr) trivial
    | fetch id =>
      rw [hp] at ha
      simp only [phaseStep] at ha
      cases hres : cfg.fetcher s.fetchCount with
      | error e =>
        simp only [hres] at ha
        injection ha with ha
        subst ha
        refine EmptyErrInv_of (i := i) (p := Phase.publish id ("", some (TMErr.fetchErr e))) h (by simp [MState.setThread])
          (fun j hji => by simp [MState.setThread, hji])
          (fun c r hr => .inr hr) ?_
        intro _
        rfl
      | ok r =>
        simp only [hres] at ha
        by_cases hre : r.Token = ""
        · rw [if_pos hre] at ha
          injection ha with ha
          subst ha
          refine EmptyErrInv_of (i := i) (p := Phase.publish id ("", some TMErr.emptyToken)) h (by simp [MState.setThread])
            (fun j hji => by simp [MState.setThread, hji])
            (fun c r hr => .inr hr) ?_
          intro _
          rfl
        · rw [if_neg hre] at ha
          injection ha with ha
          subst ha
          exact EmptyErrInv_of (i := i) (p := Phase.store id r.Token (max (r.ExpiresIn - cfg.expireBufferSeconds) 1)) h (by simp [MState.setThread])
            (fun j hji => by simp [MState.setThread, hji])
            (fun c r hr => .inr hr) trivial
    | store id tok ttl =>
      rw [hp] at ha
      simp only [phaseStep] at ha
      by_cases hsf : cfg.setFails
      · rw [if_pos hsf] at ha
        injection ha with ha
        subst ha
        refine EmptyErrInv_of h (setThread_threads_self _ _ _)
          (fun j hji => setThread_threads_ne hji) (fun c r hr => .inr hr) ?_
        intro hx
        exact Bool.noConfusion hx
      · rw [if_neg hsf] at ha
        injection ha with ha
        subst ha
        refine EmptyErrInv_of (i := i) (p := Phase.publish id (tok, none)) h (by simp [MState.setThread])
          (fun j hji => by simp [MState.setThread, hji])
          (fun c r hr => .inr hr) ?_
        intro hx
        exact Bool.noConfusion hx
    | publish id res =>
      rw [hp] at ha
      simp only [phaseStep] at ha
      injection ha with ha
      subst ha
      have hres : phaseErrEmpty (Phase.publish id res) := by
        have := h.2 i
        rw [hp] at this
        exact this
      refine EmptyErrInv_of (i := i) (p := Phase.clear id res) h (by simp [MState.setThread])
        (fun j hji => by simp [MState.setThread, hji]) ?_ hres
      intro c r hr
      have hr' : (if c = id then some res else s.callDone c) = some r := hr
      by_cases hcid : c = id
      · rw [if_pos hcid] at hr'
        injection hr' with hr''
        rw [← hr'']
        exact .inl hres
      · rw [if_neg hcid] at hr'
        exact .inr hr'
    | clear id res =>
      rw [hp] at ha
      simp only [phaseStep] at ha
      injection ha with ha
      subst ha
      have hres : phaseErrEmpty (Phase.clear id res) := by
        have := h.2 i
        rw [hp] at this
        exact this
      exact EmptyErrInv_of (i := i) (p := Phase.done res) h (by simp [MState.setThread])
        (fun j hji => by simp [MState.setThread, hji])
        (fun c r hr => .inr hr) hres
    | waiting c =>
      rw [hp] at ha
      simp only [phaseStep] at ha
      cases hcd : s.callDone c with
      | none =>
        rw [hcd] at ha
        exact Option.noConfusion ha
      | some res =>
        rw [hcd] at ha
        injection ha with ha
        subst ha
        exact EmptyErrInv_of h (setThread_threads_self _ _ _)
          (fun j hji => setThread_threads_ne hji) (fun c2 r hr => .inr hr)
          (h.1 c res hcd)
    | done res =>
      rw [hp] at ha
      simp only [phaseStep] at ha
      exact Option.noConfusion ha

/-- `EmptyErrInv` holds after any schedule from any initial cache. -/
theorem EmptyErrInv_run {N : Nat} (cfg : MCfg N) (cache0 : Option String)
    (acts : List (Act N)) :
    EmptyErrInv (runSched cfg (initState cfg cache0) acts) := by
  have h0 : EmptyErrInv (initState cfg cache0 (N := N)) := by
    constructor
    · intro c r hr
      exact Option.noConfusion hr
    · intro i
      show phaseErrEmpty (if cfg.force i then Phase.start else Phase.pre)
      by_cases hf : cfg.force i <;> simp [hf, phaseErrEmpty]
  have hind : ∀ (acts2 : List (Act N)) (s : MState N), EmptyErrInv s →
      EmptyErrInv (runSched cfg s acts2) := by
    intro acts2
    induction acts2 with
    | nil => exact fun s hs => hs
    | cons a rest ih =>
      intro s hs
      simp only [runSched]
      cases hd : doAct cfg s a with
      | none =>
        exact ih s hs
      | some s2 =>
        exact ih s2 (EmptyErrInv_step hs a hd)
  exact hind acts _ h0

/-! ## Sequential claims: C2, C3, C4, C5 -/

/-- C2 (counterexample): the claim says a `RefreshToken` call that can
observe a just-written live cache value returns that cached value
without a fetch.  On the code, with `"cached"` live in the cache and no
fetch in flight, `RefreshToken` invokes the fetcher (`fetched = true`)
and returns the fresh token `"fresh"`, not the cached value — `do` and
`fetchAndStore` guard their cache checks with `!force`, and
`RefreshToken` passes `force = true`. -/
theorem c2_counterexample :
    (RefreshTokenSeq "k" 300 (some "cached") (.ok ⟨"fresh", 7200⟩) none).result
      = ("fresh", none)
    ∧ (RefreshTokenSeq "k" 300 (some "cached") (.ok ⟨"fresh", 7200⟩) none).fetched = true
    ∧ "fresh" ≠ "cached" := by
  decide

/-- C2 (amended): `RefreshToken` performs no cache check at all — both
cache checks in `do` and `fetchAndStore` are guarded by `!force` — so
its outcome is independent of the cache contents and, when no fetch is
in flight, it always invokes the fetcher, even immediately after
another successful refresh.  Only the non-forced (`GetToken`) path
returns a live cached value from under the mutex without fetching. -/
theorem c2_amended (cacheKey : String) (B : Int) (cached : Option String)
    (fetchRes : Except String TokenFetchResult) (setErr : Option String) :
    RefreshTokenSeq cacheKey B cached fetchRes setErr
      = RefreshTokenSeq cacheKey B none fetchRes setErr
    ∧ (RefreshTokenSeq cacheKey B cached fetchRes setErr).fetched = true
    ∧ ∀ v, doCall cacheKey B false (some v) fetchRes setErr
        = ⟨(v, none), none, false, false⟩ := by
  refine ⟨rfl, ?_, fun v => rfl⟩
  simp only [RefreshTokenSeq, doCall, if_pos rfl, fetchAndStore, fetchTail]
  cases fetchRes with
  | error e => rfl
  | ok r =>
    by_cases h : r.Token = "" <;> simp [h]

/-- C3: a successful fetch of a non-empty token with reported lifetime
`L` issues a `cache.Set` whose TTL is exactly `max (L - B) 1` seconds
for the configured buffer `B`; `7200 - 300` gives `6900`, `100 - 300`
floors at `1`, and the TTL is never zero or negative. -/
theorem c3_ttl_arithmetic (cacheKey : String) (B L : Int) (t : String)
    (force : Bool) (cached : Option String) (setErr : Option String)
    (ht : t ≠ "")
    (hf : (fetchAndStore cacheKey B force cached (.ok ⟨t, L⟩) setErr).fetched = true) :
    (fetchAndStore cacheKey B force cached (.ok ⟨t, L⟩) setErr).setCall
      = some ⟨cacheKey, t, max (L - B) 1⟩
    ∧ 1 ≤ max (L - B) 1
    ∧ max ((7200 : Int) - 300) 1 = 6900
    ∧ max ((100 : Int) - 300) 1 = 1 := by
  refine ⟨?_, le_max_right _ _, by norm_num, by norm_num⟩
  cases force with
  | true => simp [fetchAndStore, fetchTail, ht]
  | false =>
    cases cached with
    | some v => simp [fetchAndStore] at hf
    | none => simp [fetchAndStore, fetchTail, ht]

/-- C3 (witness): concrete instance at `t = "tok"`, `L = 7200`,
`B = 300` on the forced path. -/
theorem c3_ttl_arithmetic_witness :
    (fetchAndStore "k" 300 true none (.ok ⟨"tok", 7200⟩) none).setCall
      = some ⟨"k", "tok", 6900⟩ :=
  (c3_ttl_arithmetic "k" 300 7200 "tok" true none none (by decide) (by decide)).1

/-- C4: a fetch that reports success with an empty token string makes
both `RefreshToken` and (on a cache miss) `GetToken` return the
`"empty token from fetcher"` error with an empty token, and no
`cache.Set` call is issued, for every reported lifetime `L`. -/
theorem c4_empty_token (cacheKey : String) (B L : Int)
    (cached : Option String) (setErr : Option String) :
    (RefreshTokenSeq cacheKey B cached (.ok ⟨"", L⟩) setErr).result
      = ("", some .emptyToken)
    ∧ (RefreshTokenSeq cacheKey B cached (.ok ⟨"", L⟩) setErr).setCall = none
    ∧ (GetTokenSeq cacheKey B none (.ok ⟨"", L⟩) setErr).result
      = ("", some .emptyToken)
    ∧ (GetTokenSeq cacheKey B none (.ok ⟨"", L⟩) setErr).setCall = none := by
  refine ⟨?_, ?_, ?_, ?_⟩ <;>
    simp [RefreshTokenSeq, GetTokenSeq, doCall, fetchAndStore, fetchTail]

/-- C5: when the fetch succeeds with a non-empty token but the
subsequent `cache.Set` returns an error, `RefreshToken` and (on a
cache miss) `GetToken` still return the freshly fetched token with a
`nil` error; the failure is only logged (`loggedCacheWarn`). -/
theorem c5_cache_write_failure (cacheKey : String) (B L : Int) (t e : String)
    (cached : Option String) (ht : t ≠ "") :
    (RefreshTokenSeq cacheKey B cached (.ok ⟨t, L⟩) (some e)).result = (t, none)
    ∧ (RefreshTokenSeq cacheKey B cached (.ok ⟨t, L⟩) (some e)).loggedCacheWarn = true
    ∧ (GetTokenSeq cacheKey B none (.ok ⟨t, L⟩) (some e)).result = (t, none)
    ∧ (GetTokenSeq cacheKey B none (.ok ⟨t, L⟩) (some e)).loggedCacheWarn = true := by
  refine ⟨?_, ?_, ?_, ?_⟩ <;>
    simp [RefreshTokenSeq, GetTokenSeq, doCall, fetchAndStore, fetchTail, ht]

/-- C5 (witness): concrete instance at `t = "tok"`, `L = 7200`,
`B = 300`, failing `Set` error `"boom"`. -/
theorem c5_cache_write_failure_witness :
    (RefreshTokenSeq "k" 300 none (.ok ⟨"tok", 7200⟩) (some "boom")).result
      = ("tok", none) :=
  (c5_cache_write_failure "k" 300 7200 "tok" "boom" none (by decide)).1

/-! ## Cache claims: C7, C8, C9 -/

/-- C7 (counterexample): the claim makes an entry live only when the
current time is strictly less than `expiresAt`, but the code's
`isExpired` uses the strict `time.Now().After(expiresAt)`, so at
`now = expiresAt` the entry is not yet expired: `Get` returns
`(value, true)` although the claim's liveness predicate is false. -/
theorem c7_counterexample :
    ((MemoryCache.mk fun k => if k = "k" then some ⟨"v", some 100⟩ else none).Get
        100 "k").1 = ("v", true)
    ∧ specLive ⟨"v", some 100⟩ 100 = false := by
  constructor
  · rfl
  · decide

/-- C7 (amended): `Get` returns `(value, true)` exactly when a live
entry exists, where live now means `expiresAt` unset or
`now ≤ expiresAt` (the entry is still served at the expiry instant
itself and expires strictly afterwards); otherwise it returns
`("", false)`.  `Get` cannot error: the `Cache` interface's `Get`
returns only `(string, bool)`, and the method body never mutates the
receiver. -/
theorem c7_amended (c : MemoryCache) (now : Int) (key : String) :
    ((∃ item, c.items key = some item ∧ liveAt item now = true
        ∧ (c.Get now key).1 = (item.value, true))
      ∨ ((∀ item, c.items key = some item → liveAt item now = false)
        ∧ (c.Get now key).1 = ("", false)))
    ∧ (c.Get now key).2 = c := by
  constructor
  · cases hit : c.items key with
    | none =>
      refine .inr ⟨fun item hi => Option.noConfusion hi, ?_⟩
      simp [MemoryCache.Get, hit]
    | some item =>
      cases he : item.expiresAt with
      | none =>
        refine .inl ⟨item, rfl, by simp [liveAt, he], ?_⟩
        simp [MemoryCache.Get, hit, cacheItem.isExpired, he]
      | some texp =>
        by_cases hle : now ≤ texp
        · have hexp : item.isExpired now = false := by
            simp [cacheItem.isExpired, he]
            omega
          refine .inl ⟨item, rfl, by simp [liveAt, he, hle], ?_⟩
          simp [MemoryCache.Get, hit, hexp]
        · have hexp : item.isExpired now = true := by
            simp [cacheItem.isExpired, he]
            omega
          refine .inr ⟨?_, ?_⟩
          · intro item' hi'
            injection hi' with hii
            subst hii
            simp [liveAt, he]
            omega
          · simp [MemoryCache.Get, hit, hexp]
  · cases hit : c.items key with
    | none => simp [MemoryCache.Get, hit]
    | some item =>
      by_cases he : item.isExpired now <;> simp [MemoryCache.Get, hit, he]

/-- C7 (witness): on a cache holding `"k" ↦ ("v", expiry 100)` at
`now = 50` the live disjunct applies and `Get` returns
`("v", true)`. -/
theorem c7_amended_witness :
    ((MemoryCache.mk fun k => if k = "k" then some ⟨"v", some 100⟩ else none).Get
        50 "k").1 = ("v", true) := by
  have h := (c7_amended
    (MemoryCache.mk fun k => if k = "k" then some ⟨"v", some 100⟩ else none) 50 "k").1
  rcases h with ⟨item, hi, _, hres⟩ | ⟨hdead, _⟩
  · obtain rfl : item = (⟨"v", some 100⟩ : cacheItem) := by
      simpa using hi.symm
    exact hres
  · have := hdead ⟨"v", some 100⟩ (by simp)
    simp [liveAt] at this

/-- C8 (counterexample): the claim says an entry "never expires when
ttl is zero/unset, and otherwise" has expiry `now + ttl`; but the code
tests `ttl > 0`, so a negative ttl also produces a never-expiring
entry.  With `ttl = -1` at `now = 0` the stored expiry is unset, not
the claimed `some (-1)`, and `Get` still finds the value at
`now = 1000`, far past `now + ttl`. -/
theorem c8_counterexample :
    (c8base.Set 0 "k" "v" (-1)).2.items "k" = some ⟨"v", none⟩
    ∧ specSetExpiresAt 0 (-1) = some (-1)
    ∧ ((c8base.Set 0 "k" "v" (-1)).2.Get 1000 "k").1 = ("v", true)
    ∧ ¬((1000 : Int) < -1) := by
  refine ⟨rfl, by decide, rfl, by decide⟩

/-- C8 (amended): `Set` stores a never-expiring entry whenever
`ttl ≤ 0` (zero, unset, or negative) and an entry expiring at
`now + ttl` when `ttl > 0`; it replaces the entry under the key,
leaves every other key unchanged, and returns `nil`. -/
theorem c8_amended (c : MemoryCache) (now : Int) (key value : String) (ttl : Int) :
    (c.Set now key value ttl).1 = none
    ∧ (c.Set now key value ttl).2.items key
      = some ⟨value, if ttl > 0 then some (now + ttl) else none⟩
    ∧ ∀ k, k ≠ key → (c.Set now key value ttl).2.items k = c.items k := by
  refine ⟨rfl, by simp [MemoryCache.Set], fun k hk => by simp [MemoryCache.Set, hk]⟩

/-- C8 (witness): concrete instance — a positive ttl stores expiry
`now + ttl` and does not touch other keys. -/
theorem c8_amended_witness :
    (c8base.Set 5 "k" "v" 10).2.items "k" = some ⟨"v", some 15⟩
    ∧ (c8base.Set 5 "k" "v" 10).2.items "j" = none := by
  constructor
  · have h := (c8_amended c8base 5 "k" "v" 10).2.1
    simpa using h
  · have h := (c8_amended c8base 5 "k" "v" 10).2.2 "j" (by decide)
    simpa [c8base] using h

/-- C9: `Get` never mutates the cache — in particular a `Get` that
misses on an expired entry leaves the entry in place; `Cleanup`
removes exactly the entries expired at the instant of the call and
keeps the rest; physical removal otherwise happens only through
`Delete` (which removes exactly its key) or the overwrite performed by
`Set` (see `c8_amended`). -/
theorem c9_lazy_expiry (c : MemoryCache) (now : Int) (key : String) :
    (c.Get now key).2 = c
    ∧ (∀ item, c.items key = some item → item.isExpired now = true →
        (c.Get now key).1 = ("", false) ∧ (c.Get now key).2.items key = some item)
    ∧ (∀ k item, c.items k = some item → item.isExpired now = false →
        (c.Cleanup now).items k = some item)
    ∧ (∀ k item, c.items k = some item → item.isExpired now = true →
        (c.Cleanup now).items k = none)
    ∧ (∀ k, c.items k = none → (c.Cleanup now).items k = none)
    ∧ (c.Delete key).2.items key = none
    ∧ (∀ k, k ≠ key → (c.Delete key).2.items k = c.items k) := by
  have hget : (c.Get now key).2 = c := by
    cases hit : c.items key with
    | none => simp [MemoryCache.Get, hit]
    | some item =>
      by_cases he : item.isExpired now <;> simp [MemoryCache.Get, hit, he]
  refine ⟨hget, ?_, ?_, ?_, ?_, ?_, ?_⟩
  · intro item hit he
    refine ⟨by simp [MemoryCache.Get, hit, he], by rw [hget, hit]⟩
  · intro k item hit he
    simp [MemoryCache.Cleanup, hit, he]
  · intro k item hit he
    simp [MemoryCache.Cleanup, hit, he]
  · intro k hit
    simp [MemoryCache.Cleanup, hit]
  · simp [MemoryCache.Delete]
  · intro k hk
    simp [MemoryCache.Delete, hk]

/-- C9 (witness): on a cache holding an expired `"old"` entry and a
live `"new"` entry at `now = 100`, a missing `Get` keeps the expired
entry in place and `Cleanup` removes exactly the expired one. -/
theorem c9_lazy_expiry_witness :
    ((MemoryCache.mk fun k =>
        if k = "old" then some ⟨"v1", some 10⟩
        else if k = "new" then some ⟨"v2", some 200⟩ else none).Get
      100 "old").2.items "old" = some ⟨"v1", some 10⟩
    ∧ ((MemoryCache.mk fun k =>
        if k = "old" then some ⟨"v1", some 10⟩
        else if k = "new" then some ⟨"v2", some 200⟩ else none).Cleanup
      100).items "old" = none
    ∧ ((MemoryCache.mk fun k =>
        if k = "old" then some ⟨"v1", some 10⟩
        else if k = "new" then some ⟨"v2", some 200⟩ else none).Cleanup
      100).items "new" = some ⟨"v2", some 200⟩ := by
  refine ⟨?_, ?_, ?_⟩
  · exact ((c9_lazy_expiry _ 100 "old").2.1 ⟨"v1", some 10⟩ (by decide) (by decide)).2
  · exact (c9_lazy_expiry _ 100 "old").2.2.2.1 "old" ⟨"v1", some 10⟩ (by decide) (by decide)
  · exact (c9_lazy_expiry _ 100 "new").2.2.1 "new" ⟨"v2", some 200⟩ (by decide) (by decide)

/-! ## Concurrency claims: C1, C6, C10 -/

/-- C1: for every number of callers `N > 0`, every schedule of `N`
concurrent `GetToken` calls (no forced refresh, no cancellations)
against an initially empty cache and a fetcher that always succeeds
with the non-empty token `t`: whenever every call has returned, the
fetcher was invoked exactly once and every caller returned `(t, nil)`
— one caller became the leader and all others either joined its
in-flight call or read the token it cached. -/
theorem c1_single_flight (N : Nat) (hN : 0 < N) (cfg : MCfg N) (t : String)
    (L : Int)
    (hforce : ∀ i, cfg.force i = false)
    (hfetch : ∀ k, cfg.fetcher k = Except.ok ⟨t, L⟩)
    (ht : t ≠ "") (hset : cfg.setFails = false)
    (acts : List (Act N)) (hacts : NoCancel acts)
    (hfin : (runSched cfg (initState cfg none) acts).Final) :
    (runSched cfg (initState cfg none) acts).fetchCount = 1
    ∧ ∀ i, (runSched cfg (initState cfg none) acts).threads i
        = .done (t, none) := by
  have hinv : SFInv t (runSched cfg (initState cfg none) acts) :=
    SFInv_run hforce hfetch ht hset (SFInv_init cfg t hforce) acts
  have hunc : AllUncanceled (runSched cfg (initState cfg none) acts) :=
    runSched_uncanceled acts hacts (fun _ => rfl)
  have hall : ∀ i, (runSched cfg (initState cfg none) acts).threads i
      = .done (t, none) := by
    intro i
    obtain ⟨r, hr⟩ := hfin i
    have hph := hinv.phases i
    unfold phaseInv at hph
    rw [hr] at hph
    have hph' : (r = ((t : String), (none : Option TMErr))
        ∧ (runSched cfg (initState cfg none) acts).fetchCount = 1)
        ∨ (r = (("" : String), some TMErr.ctxCanceled)
        ∧ (runSched cfg (initState cfg none) acts).canceled i = true) := hph
    rcases hph' with ⟨h1, _⟩ | ⟨_, h2⟩
    · rw [hr, h1]
    · rw [hunc i] at h2
      exact Bool.noConfusion h2
  refine ⟨?_, hall⟩
  have hph := hinv.phases ⟨0, hN⟩
  unfold phaseInv at hph
  rw [hall ⟨0, hN⟩] at hph
  have hph' : (((t : String), (none : Option TMErr)) = (t, none)
      ∧ (runSched cfg (initState cfg none) acts).fetchCount = 1)
      ∨ (((t : String), (none : Option TMErr)) = ("", some TMErr.ctxCanceled)
      ∧ (runSched cfg (initState cfg none) acts).canceled ⟨0, hN⟩ = true) := hph
  rcases hph' with ⟨_, h2⟩ | ⟨h1, _⟩
  · exact h2
  · exact absurd (congrArg Prod.snd h1) (by simp)

/-- C1 (witness): two `GetToken` callers, fetcher `("tok", 7200)`;
caller 0 runs to completion, caller 1 then reads the cache; exactly
one fetch, both return `("tok", nil)`. -/
theorem c1_single_flight_witness :
    (runSched cfgA (initState cfgA none) actsA).fetchCount = 1
    ∧ ∀ i, (runSched cfgA (initState cfgA none) actsA).threads i
        = .done ("tok", none) :=
  c1_single_flight 2 (by decide) cfgA "tok" 7200 (fun _ => rfl) (fun _ => rfl)
    (by decide) rfl actsA (by unfold NoCancel actsA; decide)
    (by
      intro i
      fin_cases i
      · exact ⟨("tok", none), by decide⟩
      · exact ⟨("tok", none), by decide⟩)

/-- C6: with non-forced callers over a fetcher that always succeeds
with the non-empty token `t` and an initially empty cache, under every
schedule (cancellations allowed): at most one fetch ever happens (a
waiter giving up never cancels or restarts the leader's fetch); every
returned error is the waiter's own cancellation error and only goes to
a caller whose context was canceled; when every call has returned,
every caller whose context was never canceled holds the leader's
result `(t, nil)`; and a canceled waiter always has its
`ctx.Done()` branch of `waitTokenCall` enabled, returning
`("", ctx.Err())` immediately. -/
theorem c6_cancellation_isolation (N : Nat) (cfg : MCfg N) (t : String)
    (L : Int)
    (hforce : ∀ i, cfg.force i = false)
    (hfetch : ∀ k, cfg.fetcher k = Except.ok ⟨t, L⟩)
    (ht : t ≠ "") (hset : cfg.setFails = false)
    (acts : List (Act N)) :
    ((runSched cfg (initState cfg none) acts).fetchCount ≤ 1)
    ∧ (∀ i res,
        (runSched cfg (initState cfg none) acts).threads i = .done res →
        res = (t, none)
        ∨ (res = ("", some .ctxCanceled)
          ∧ (runSched cfg (initState cfg none) acts).canceled i = true))
    ∧ ((runSched cfg (initState cfg none) acts).Final →
        ∀ i, (runSched cfg (initState cfg none) acts).canceled i = false →
          (runSched cfg (initState cfg none) acts).threads i
            = .done (t, none))
    ∧ (∀ (s : MState N) (i : Fin N) (c : Nat), s.threads i = .waiting c →
        s.canceled i = true →
        doAct cfg s (.giveUp i)
          = some (s.setThread i (.done ("", some .ctxCanceled)))) := by
  have hinv : SFInv t (runSched cfg (initState cfg none) acts) :=
    SFInv_run hforce hfetch ht hset (SFInv_init cfg t hforce) acts
  have hdone : ∀ i res,
      (runSched cfg (initState cfg none) acts).threads i = .done res →
      (res = ((t : String), (none : Option TMErr))
        ∧ (runSched cfg (initState cfg none) acts).fetchCount = 1)
      ∨ (res = (("" : String), some TMErr.ctxCanceled)
        ∧ (runSched cfg (initState cfg none) acts).canceled i = true) := by
    intro i res hr
    have hph := hinv.phases i
    unfold phaseInv at hph
    rw [hr] at hph
    exact hph
  refine ⟨hinv.fetchLe, ?_, ?_, ?_⟩
  · intro i res hr
    rcases hdone i res hr with ⟨h1, _⟩ | h2
    · exact .inl h1
    · exact .inr h2
  · intro hfin i hci
    obtain ⟨r, hr⟩ := hfin i
    rcases hdone i r hr with ⟨h1, _⟩ | ⟨_, h2⟩
    · rw [hr, h1]
    · rw [hci] at h2
      exact Bool.noConfusion h2
  · intro s i c hw hc
    simp only [doAct]
    rw [hw, hc]

/-- C6 (witness): three callers; caller 0 leads, callers 1 and 2 join
the in-flight call, caller 1 is canceled and gives up, caller 0
finishes, caller 2 receives the result: caller 1 returned its own
cancellation error, caller 2 still got `("tok", nil)`, and only one
fetch happened. -/
theorem c6_cancellation_isolation_witness :
    (runSched cfgB (initState cfgB none) actsB).threads 1
      = .done ("", some .ctxCanceled)
    ∧ (runSched cfgB (initState cfgB none) actsB).threads 2
      = .done ("tok", none)
    ∧ (runSched cfgB (initState cfgB none) actsB).fetchCount ≤ 1 := by
  have h := c6_cancellation_isolation 3 cfgB "tok" 7200 (fun _ => rfl)
    (fun _ => rfl) (by decide) rfl actsB
  refine ⟨by decide, ?_, h.1⟩
  refine h.2.2.1 ?_ 2 (by decide)
  intro i
  fin_cases i
  · exact ⟨("tok", none), by decide⟩
  · exact ⟨("", some .ctxCanceled), by decide⟩
  · exact ⟨("tok", none), by decide⟩

/-- C10: over every configuration (forced or not, any fetcher, any
initial cache, failing or working `Set`, cancellations allowed), any
caller that returns with a non-`nil` error returns the empty token
string alongside it — leaders, joined waiters receiving the leader's
failure, and canceled waiters alike. -/
theorem c10_error_empty_token (N : Nat) (cfg : MCfg N)
    (cache0 : Option String) (acts : List (Act N)) (i : Fin N)
    (tok : String) (e : TMErr)
    (hdone : (runSched cfg (initState cfg cache0) acts).threads i
      = .done (tok, some e)) :
    tok = "" := by
  have hinv := EmptyErrInv_run cfg cache0 acts
  have hph := hinv.2 i
  rw [hdone] at hph
  exact hph rfl

/-- C10 (witness): a lone forced caller whose fetcher fails with
`"boom"` returns `("", fetchErr "boom")`; the token alongside the
error is empty. -/
theorem c10_error_empty_token_witness :
    (runSched cfgC (initState cfgC none) actsC).threads 0
      = .done ("", some (.fetchErr "boom"))
    ∧ ("" : String) = "" :=
  ⟨by decide,
   c10_error_empty_token 1 cfgC none actsC 0 "" (.fetchErr "boom") (by decide)⟩

end FunkWechat
